import Mathlib

/-!
Shallow embedding of the TGO Earth-occultation scripts:
`OPSWeb_requester.py` (coverage matching of occultation windows against
ground-station passes), `Occ_times_spice_parallel.py` (crossing detection of
the impact parameter against the Mars radius), and
`covered_occultations.py` (nearest-time alignment of the two event lists).
Times are modelled as rational numbers (seconds on a common epoch scale);
the SPICE ephemeris is an abstract oracle. A Python expression that can
raise is modelled as an `Option`, with `none` for the raised exception.
-/

namespace TGO

/-! ### OPSWeb_requester.py: passes, occultations and the coverage check -/

/-- Value of the `mspa` field of a pass record as pandas sees it: a missing
entry (NaN), a Python boolean, or a string. The source compares it with the
string `'true'`, which is an equality test that is false for every non-string
value. -/
inductive MspaVal where
  | nan : MspaVal
  | pybool : Bool → MspaVal
  | str : String → MspaVal
deriving DecidableEq

/-- A ground-station pass record: `groundstation`, `mspa`, observer-time
`time_start`/`time_end`, and the one-way light time `owlt` (seconds). -/
structure Pass where
  groundstation : String
  mspa : MspaVal
  time_start : ℚ
  time_end : ℚ
  owlt : ℚ
deriving DecidableEq

/-- `time_start_corr = time_start - owlt_delta` (OWLT correction). -/
def Pass.time_start_corr (p : Pass) : ℚ := p.time_start - p.owlt

/-- `time_end_corr = time_end - owlt_delta` (OWLT correction). -/
def Pass.time_end_corr (p : Pass) : ℚ := p.time_end - p.owlt

/-- The denylisted ground stations of the filter
`~df_passes['groundstation'].isin(['KLZ', 'BLK'])`. -/
def excludedStations : List String := ["KLZ", "BLK"]

/-- The two pass filters of the source, in order: drop denylisted ground
stations, then drop passes whose `mspa` field equals the string `'true'`
(`df_passes[df_passes['mspa'] != 'true']`). -/
def filterPasses (passes : List Pass) : List Pass :=
  (passes.filter fun p => !(excludedStations.contains p.groundstation)).filter
    fun p => p.mspa != MspaVal.str "true"

/-- An occultation window record: ingress `time_start`, egress `time_end`,
in spacecraft time. -/
structure Occultation where
  time_start : ℚ
  time_end : ℚ
deriving DecidableEq

/-- The per-occultation coverage test of the source loop: the ingress margin
interval `[ing_time - margin, ing_time]` must lie inside some pass's corrected
interval, and the egress margin interval `[egr_time, egr_time + margin]` must
lie inside some (possibly different) pass's corrected interval.  The source
fixes `margin` to `timedelta(minutes=10)`; it is a parameter here. -/
def occCovered (passes : List Pass) (margin : ℚ) (occ : Occultation) : Bool :=
  let ing_start_req := occ.time_start - margin
  let ing_end_req := occ.time_start
  let egr_start_req := occ.time_end
  let egr_end_req := occ.time_end + margin
  (passes.any fun p =>
    decide (p.time_start_corr ≤ ing_start_req ∧ p.time_end_corr ≥ ing_end_req)) &&
  (passes.any fun p =>
    decide (p.time_start_corr ≤ egr_start_req ∧ p.time_end_corr ≥ egr_end_req))

/-- The `covered` list construction: the occultations passing `occCovered`
against the filtered pass list, kept as (ingress, egress) pairs. -/
def coveredOccs (rawPasses : List Pass) (occs : List Occultation) (margin : ℚ) :
    List (ℚ × ℚ) :=
  (occs.filter (occCovered (filterPasses rawPasses) margin)).map
    fun occ => (occ.time_start, occ.time_end)

/-! ### Occ_times_spice_parallel.py: the epoch grid and crossing detection -/

/-- The sampled epoch grid `np.arange(start_et, end_et, step)`: values
`start_et, start_et + step, …` strictly below `end_et` (empty when the step
does not move from start towards the excluded upper bound). -/
def arange (s e st : ℚ) : List ℚ :=
  if h : 0 < st ∧ s < e then
    s :: arange (s + st) e st
  else []
termination_by ⌈(e - s) / st⌉.toNat
decreasing_by
  have hst := h.1
  have hse := h.2
  have hst' : st ≠ 0 := ne_of_gt hst
  have key : (e - (s + st)) / st = (e - s) / st - 1 := by
    field_simp
    ring
  rw [key, Int.ceil_sub_one]
  have hc : 0 < ⌈(e - s) / st⌉ :=
    Int.ceil_pos.mpr (div_pos (by linarith) hst)
  omega

/-- `MARS_RADIUS = 3397.515` km. -/
def MARS_RADIUS : ℚ := 3397.515

/-- What one successful SPICE geometry query of `compute_tangent_params`
yields: the impact parameter `np.linalg.norm(tanpt)`, the tangent point, and
the solar zenith angle. -/
structure GeomResult where
  ip : ℚ
  tanpt : ℚ × ℚ × ℚ
  sza : ℚ
deriving DecidableEq

/-- Abstract ephemeris oracle standing for the SPICE calls: `geom` bundles the
`spkpos`/`tangpt`/`vsep` computation at one epoch (`none` models a raised
`SpiceyError`); `reclat` maps a tangent-point vector to (radius, longitude,
latitude); `lspcn` is the solar longitude at an epoch in radians; `degFactor`
is the radians-to-degrees scale applied by `np.degrees`/`np.rad2deg`. -/
structure Ephem where
  geom : ℚ → Option GeomResult
  reclat : ℚ × ℚ × ℚ → ℚ × ℚ × ℚ
  lspcn : ℚ → ℚ
  degFactor : ℚ

/-- One valid time sample `(et, ip, tanpt, sza)` as returned by
`compute_tangent_params`. -/
structure Sample where
  et : ℚ
  ip : ℚ
  tanpt : ℚ × ℚ × ℚ
  sza : ℚ
deriving DecidableEq

/-- `compute_tangent_params`: at epoch `et` query the geometry; a raised
`SpiceyError` becomes `None`, success carries the epoch through unchanged. -/
def compute_tangent_params (E : Ephem) (et : ℚ) : Option Sample :=
  match E.geom et with
  | none => none
  | some g => some ⟨et, g.ip, g.tanpt, g.sza⟩

/-- `valid = [r for r in results if r]` where `results` is the
order-preserving `executor.map` of `compute_tangent_params` over the epoch
list: the non-`None` per-epoch results, in input order. -/
def validSamples (E : Ephem) (et_list : List ℚ) : List Sample :=
  et_list.filterMap (compute_tangent_params E)

/-- `np.where(ing_mask)[0] + 1`: the positions `i + 1` such that
`impact_params[i] > radius` and `impact_params[i+1] <= radius` (ingress). -/
def ingressIdxs (ips : List ℚ) (radius : ℚ) : List ℕ :=
  (List.range (ips.length - 1)).filterMap fun i =>
    if ips.getD i 0 > radius ∧ ips.getD (i + 1) 0 ≤ radius then some (i + 1)
    else none

/-- `np.where(egr_mask)[0] + 1`: the positions `i + 1` such that
`impact_params[i] <= radius` and `impact_params[i+1] > radius` (egress). -/
def egressIdxs (ips : List ℚ) (radius : ℚ) : List ℕ :=
  (List.range (ips.length - 1)).filterMap fun i =>
    if ips.getD i 0 ≤ radius ∧ ips.getD (i + 1) 0 > radius then some (i + 1)
    else none

/-- The `% 360` normalization applied to the solar longitude,
`x - 360 * floor (x / 360)`. -/
def mod360 (x : ℚ) : ℚ := x - 360 * ⌊x / 360⌋

/-- A detected crossing event row
`(t_et, np.degrees(lon), np.degrees(lat), sza, ls_deg)`. -/
structure Event where
  et : ℚ
  lon : ℚ
  lat : ℚ
  sza : ℚ
  ls : ℚ
deriving DecidableEq

/-- The default sample used only out of bounds (the source indexes inside
bounds always). -/
def defaultSample : Sample := ⟨0, 0, (0, 0, 0), 0⟩

/-- The event row built at one detected index: epoch and SZA from the sample
at that index, latitude/longitude recovered from its tangent point with
`reclat` and converted to degrees, solar longitude from `lspcn` at the
sample's epoch, normalized into `[0, 360)`. -/
def mkEvent (E : Ephem) (valid : List Sample) (idx : ℕ) : Event :=
  let s := valid.getD idx defaultSample
  let rll := E.reclat s.tanpt
  { et := s.et
    lon := E.degFactor * rll.2.1
    lat := E.degFactor * rll.2.2
    sza := s.sza
    ls := mod360 (E.degFactor * E.lspcn s.et) }

/-- The ingress event list: event rows at the ingress crossing indices of the
valid impact-parameter series, against `MARS_RADIUS`. -/
def ingEvents (E : Ephem) (valid : List Sample) : List Event :=
  (ingressIdxs (valid.map Sample.ip) MARS_RADIUS).map (mkEvent E valid)

/-- The egress event list: event rows at the egress crossing indices of the
valid impact-parameter series, against `MARS_RADIUS`. -/
def egrEvents (E : Ephem) (valid : List Sample) : List Event :=
  (egressIdxs (valid.map Sample.ip) MARS_RADIUS).map (mkEvent E valid)

/-- `find_occultations_parallel`: sample the epoch grid, evaluate the
per-epoch geometry (dropping failures), and reduce the valid series to the
ingress and egress event lists. With no valid sample at all, the unpacking
`et_vals, impact_params, tanpts, szas = zip(*valid)` raises, modelled as
`none`. -/
def find_occultations (E : Ephem) (start_et end_et step : ℚ) :
    Option (List Event × List Event) :=
  let et_list := arange start_et end_et step
  let valid := validSamples E et_list
  if valid.isEmpty then none
  else some (ingEvents E valid, egrEvents E valid)

/-! ### covered_occultations.py: nearest-time alignment and the coverage
percentage -/

/-- The reported event nearest to `d` in absolute ingress-time difference
(`pd.merge_asof(..., direction='nearest')`); an earlier entry wins a tie.
`none` only when there are no reported events. -/
def nearestReported (reported : List ℚ) (d : ℚ) : Option ℚ :=
  reported.foldl
    (fun acc r =>
      match acc with
      | none => some r
      | some b => if |d - r| < |d - b| then some r else some b)
    none

/-- The aligned table: each derived (SPICE) event keyed by its ingress time is
paired with the nearest reported (OPSWeb) ingress time when the absolute
difference is within `tolerance` (inclusive, as `merge_asof` applies it);
rows without a match are dropped (`merged.dropna(subset=['ingress'])`). -/
def alignEvents (derived reported : List ℚ) (tol : ℚ) : List (ℚ × ℚ) :=
  derived.filterMap fun d =>
    match nearestReported reported d with
    | none => none
    | some r => if |d - r| ≤ tol then some (d, r) else none

/-- `coverage_pct = covered_occ / total_occ * 100`: the Python division of two
ints, which raises `ZeroDivisionError` when `total_occ = 0` (modelled as
`none`). -/
def coverageStat (derived reported : List ℚ) (tol : ℚ) : Option ℚ :=
  let total_occ := derived.length
  let covered_occ := (alignEvents derived reported tol).length
  if total_occ = 0 then none
  else some ((covered_occ : ℚ) / (total_occ : ℚ) * 100)

/-! ### Supporting lemmas -/

/-- Membership in the filtered pass list: in the raw list, not a denylisted
station, and `mspa` not the string `'true'`. -/
theorem mem_filterPasses (raw : List Pass) (p : Pass) :
    p ∈ filterPasses raw ↔
      p ∈ raw ∧ p.groundstation ∉ excludedStations ∧
        p.mspa ≠ MspaVal.str "true" := by
  simp [filterPasses, List.mem_filter]
  tauto

/-- The coverage test as an existence statement over the pass list. -/
theorem occCovered_eq_true_iff (passes : List Pass) (margin : ℚ)
    (occ : Occultation) :
    occCovered passes margin occ = true ↔
      (∃ p ∈ passes, p.time_start_corr ≤ occ.time_start - margin ∧
        p.time_end_corr ≥ occ.time_start) ∧
      (∃ p ∈ passes, p.time_start_corr ≤ occ.time_end ∧
        p.time_end_corr ≥ occ.time_end + margin) := by
  simp [occCovered, List.any_eq_true]

/-- Unfolding of `arange` when the guard holds. -/
theorem arange_eq_cons (s e st : ℚ) (hst : 0 < st) (hse : s < e) :
    arange s e st = s :: arange (s + st) e st := by
  rw [arange.eq_def, dif_pos ⟨hst, hse⟩]

/-- Unfolding of `arange` when the guard fails. -/
theorem arange_eq_nil (s e st : ℚ) (h : ¬(0 < st ∧ s < e)) :
    arange s e st = [] := by
  rw [arange.eq_def, dif_neg h]

/-- Length of the epoch grid for a positive step, with no constraint between
the bounds. -/
theorem arange_length_of_pos (s e st : ℚ) (hst : 0 < st) :
    (arange s e st).length = ⌈(e - s) / st⌉.toNat := by
  by_cases hse : s < e
  · rw [arange_eq_cons s e st hst hse]
    have ih := arange_length_of_pos (s + st) e st hst
    simp only [List.length_cons, ih]
    have hst' : st ≠ 0 := ne_of_gt hst
    have key : (e - (s + st)) / st = (e - s) / st - 1 := by
      field_simp
      ring
    rw [key, Int.ceil_sub_one]
    have hc : 0 < ⌈(e - s) / st⌉ :=
      Int.ceil_pos.mpr (div_pos (by linarith) hst)
    omega
  · rw [arange_eq_nil s e st (by tauto)]
    have hle : (e - s) / st ≤ 0 :=
      div_nonpos_iff.mpr (Or.inr ⟨by linarith, le_of_lt hst⟩)
    have : ⌈(e - s) / st⌉ ≤ 0 := Int.ceil_le.mpr (by exact_mod_cast hle)
    simp
    omega
termination_by ⌈(e - s) / st⌉.toNat
decreasing_by
  have hst' : st ≠ 0 := ne_of_gt hst
  have key : (e - (s + st)) / st = (e - s) / st - 1 := by
    field_simp
    ring
  rw [key, Int.ceil_sub_one]
  have hc : 0 < ⌈(e - s) / st⌉ :=
    Int.ceil_pos.mpr (div_pos (by linarith) hst)
  omega

/-- Unfolding lemma for `ingressIdxs` on a two-sample series. -/
theorem ingressIdxs_pair (a b radius : ℚ) :
    ingressIdxs [a, b] radius =
      if a > radius ∧ b ≤ radius then [1] else [] := by
  by_cases h : a > radius ∧ b ≤ radius
  · simp [ingressIdxs, h, List.range_succ]
  · simp [ingressIdxs, h, List.range_succ]

/-- Unfolding lemma for `egressIdxs` on a two-sample series. -/
theorem egressIdxs_pair (a b radius : ℚ) :
    egressIdxs [a, b] radius =
      if a ≤ radius ∧ b > radius then [1] else [] := by
  by_cases h : a ≤ radius ∧ b > radius
  · simp [egressIdxs, h, List.range_succ]
  · simp [egressIdxs, h, List.range_succ]

/-- Every grid entry is at least the start epoch. -/
theorem arange_le (s e st : ℚ) (hst : 0 < st) :
    ∀ x ∈ arange s e st, s ≤ x := by
  by_cases hse : s < e
  · rw [arange_eq_cons s e st hst hse]
    intro x hx
    rcases List.mem_cons.mp hx with rfl | hx
    · exact le_refl x
    · have ih := arange_le (s + st) e st hst x hx
      linarith
  · rw [arange_eq_nil s e st (by tauto)]
    simp
termination_by ⌈(e - s) / st⌉.toNat
decreasing_by
  have hst' : st ≠ 0 := ne_of_gt hst
  have key : (e - (s + st)) / st = (e - s) / st - 1 := by
    field_simp
    ring
  rw [key, Int.ceil_sub_one]
  have hc : 0 < ⌈(e - s) / st⌉ :=
    Int.ceil_pos.mpr (div_pos (by linarith) hst)
  omega

/-- For a positive step the epoch grid is strictly increasing. -/
theorem arange_sorted (s e st : ℚ) (hst : 0 < st) :
    List.Sorted (· < ·) (arange s e st) := by
  by_cases hse : s < e
  · rw [arange_eq_cons s e st hst hse]
    rw [List.sorted_cons]
    refine ⟨?_, arange_sorted (s + st) e st hst⟩
    intro b hb
    have := arange_le (s + st) e st hst b hb
    linarith
  · rw [arange_eq_nil s e st (by tauto)]
    exact List.sorted_nil
termination_by ⌈(e - s) / st⌉.toNat
decreasing_by
  have hst' : st ≠ 0 := ne_of_gt hst
  have key : (e - (s + st)) / st = (e - s) / st - 1 := by
    field_simp
    ring
  rw [key, Int.ceil_sub_one]
  have hc : 0 < ⌈(e - s) / st⌉ :=
    Int.ceil_pos.mpr (div_pos (by linarith) hst)
  omega

/-- The epochs of the valid samples are exactly the epochs whose geometry
query succeeds, in input order. -/
theorem map_et_validSamples (E : Ephem) (l : List ℚ) :
    (validSamples E l).map Sample.et = l.filter fun et => (E.geom et).isSome := by
  induction l with
  | nil => rfl
  | cons hd tl ih =>
    simp only [validSamples, List.filterMap_cons, List.filter_cons] at *
    cases hgeom : E.geom hd with
    | none => simp [compute_tangent_params, hgeom, ih]
    | some g => simp [compute_tangent_params, hgeom, ih]

/-- The valid-sample epochs inherit the grid's order: they are
non-decreasing. -/
theorem validSamples_et_sorted (E : Ephem) (s e st : ℚ) (hst : 0 < st) :
    List.Sorted (· ≤ ·) ((validSamples E (arange s e st)).map Sample.et) := by
  rw [map_et_validSamples]
  have h1 : List.Sorted (· < ·) (arange s e st) := arange_sorted s e st hst
  have h2 : List.Sorted (· ≤ ·) (arange s e st) := h1.imp le_of_lt
  exact h2.filter _

/-- Ingress crossing indices are strictly increasing. -/
theorem ingressIdxs_pairwise (ips : List ℚ) (radius : ℚ) :
    List.Pairwise (· < ·) (ingressIdxs ips radius) := by
  rw [ingressIdxs, List.pairwise_filterMap]
  refine (List.pairwise_lt_range _).imp_of_mem ?_
  intro a b _ _ hab x hx y hy
  split at hx
  · split at hy
    · simp only [Option.mem_some_iff] at hx hy
      omega
    · simp at hy
  · simp at hx

/-- Ingress crossing indices stay inside the series. -/
theorem ingressIdxs_bound (ips : List ℚ) (radius : ℚ) :
    ∀ i ∈ ingressIdxs ips radius, i < ips.length := by
  intro i hi
  rw [ingressIdxs, List.mem_filterMap] at hi
  obtain ⟨j, hj, hf⟩ := hi
  rw [List.mem_range] at hj
  split at hf
  · injection hf with h
    omega
  · cases hf

/-- Egress crossing indices are strictly increasing. -/
theorem egressIdxs_pairwise (ips : List ℚ) (radius : ℚ) :
    List.Pairwise (· < ·) (egressIdxs ips radius) := by
  rw [egressIdxs, List.pairwise_filterMap]
  refine (List.pairwise_lt_range _).imp_of_mem ?_
  intro a b _ _ hab x hx y hy
  split at hx
  · split at hy
    · simp only [Option.mem_some_iff] at hx hy
      omega
    · simp at hy
  · simp at hx

/-- Egress crossing indices stay inside the series. -/
theorem egressIdxs_bound (ips : List ℚ) (radius : ℚ) :
    ∀ i ∈ egressIdxs ips radius, i < ips.length := by
  intro i hi
  rw [egressIdxs, List.mem_filterMap] at hi
  obtain ⟨j, hj, hf⟩ := hi
  rw [List.mem_range] at hj
  split at hf
  · injection hf with h
    omega
  · cases hf

/-- Reading a non-decreasing list at strictly increasing in-bounds indices
yields a non-decreasing list. -/
theorem sorted_map_getD (l : List ℚ) (hl : List.Sorted (· ≤ ·) l)
    (idxs : List ℕ) (hidx : List.Pairwise (· < ·) idxs)
    (hbd : ∀ i ∈ idxs, i < l.length) :
    List.Sorted (· ≤ ·) (idxs.map fun i => l.getD i 0) := by
  rw [List.Sorted, List.pairwise_map]
  refine hidx.imp_of_mem ?_
  intro a b ha hb hab
  have hla := hbd a ha
  have hlb := hbd b hb
  rw [List.getD_eq_getElem l 0 hla, List.getD_eq_getElem l 0 hlb]
  have := hl.rel_get_of_lt
    (show (⟨a, hla⟩ : Fin l.length) < ⟨b, hlb⟩ from hab)
  simpa using this

/-- The ET column of the ingress events reads the valid-sample epochs at the
ingress indices. -/
theorem map_et_ingEvents (E : Ephem) (valid : List Sample) :
    (ingEvents E valid).map Event.et =
      (ingressIdxs (valid.map Sample.ip) MARS_RADIUS).map
        fun i => (valid.map Sample.et).getD i 0 := by
  rw [ingEvents, List.map_map]
  refine List.map_congr_left ?_
  intro i hi
  have hbd : i < (valid.map Sample.ip).length := ingressIdxs_bound _ _ i hi
  rw [List.length_map] at hbd
  show (valid.getD i defaultSample).et = (valid.map Sample.et).getD i 0
  rw [List.getD_eq_getElem _ _ hbd,
    List.getD_eq_getElem _ _ (by simpa using hbd), List.getElem_map]

/-- The ET column of the egress events reads the valid-sample epochs at the
egress indices. -/
theorem map_et_egrEvents (E : Ephem) (valid : List Sample) :
    (egrEvents E valid).map Event.et =
      (egressIdxs (valid.map Sample.ip) MARS_RADIUS).map
        fun i => (valid.map Sample.et).getD i 0 := by
  rw [egrEvents, List.map_map]
  refine List.map_congr_left ?_
  intro i hi
  have hbd : i < (valid.map Sample.ip).length := egressIdxs_bound _ _ i hi
  rw [List.length_map] at hbd
  show (valid.getD i defaultSample).et = (valid.map Sample.et).getD i 0
  rw [List.getD_eq_getElem _ _ hbd,
    List.getD_eq_getElem _ _ (by simpa using hbd), List.getElem_map]

/-- The nearest-match fold, started from a candidate, returns a minimizer of
the absolute time difference among the list and the candidate. -/
theorem nearest_foldl_some (d : ℚ) (l : List ℚ) (b : ℚ) :
    ∃ r, l.foldl
        (fun acc q =>
          match acc with
          | none => some q
          | some c => if |d - q| < |d - c| then some q else some c)
        (some b) = some r ∧
      (r ∈ l ∨ r = b) ∧ |d - r| ≤ |d - b| ∧ ∀ q ∈ l, |d - r| ≤ |d - q| := by
  induction l generalizing b with
  | nil => exact ⟨b, rfl, Or.inr rfl, le_refl _, by simp⟩
  | cons hd tl ih =>
    simp only [List.foldl_cons]
    by_cases hcase : |d - hd| < |d - b|
    · rw [if_pos hcase]
      obtain ⟨r, hr, hmem, hle, hall⟩ := ih hd
      refine ⟨r, hr, ?_, ?_, ?_⟩
      · rcases hmem with hm | hm
        · exact Or.inl (List.mem_cons_of_mem hd hm)
        · exact Or.inl (hm ▸ List.mem_cons_self hd tl)
      · exact hle.trans (le_of_lt hcase)
      · intro q hq
        rcases List.mem_cons.mp hq with rfl | hq
        · exact hle
        · exact hall q hq
    · rw [if_neg hcase]
      obtain ⟨r, hr, hmem, hle, hall⟩ := ih b
      refine ⟨r, hr, ?_, hle, ?_⟩
      · rcases hmem with hm | hm
        · exact Or.inl (List.mem_cons_of_mem hd hm)
        · exact Or.inr hm
      · intro q hq
        rcases List.mem_cons.mp hq with rfl | hq
        · exact hle.trans (le_of_not_lt hcase)
        · exact hall q hq

/-- A returned nearest reported event is in the reported list and minimizes
the absolute time difference. -/
theorem nearestReported_spec (reported : List ℚ) (d r : ℚ)
    (h : nearestReported reported d = some r) :
    r ∈ reported ∧ ∀ q ∈ reported, |d - r| ≤ |d - q| := by
  cases reported with
  | nil => cases h
  | cons hd tl =>
    rw [nearestReported, List.foldl_cons] at h
    obtain ⟨r', hr', hmem, hle, hall⟩ := nearest_foldl_some d tl hd
    rw [hr'] at h
    injection h with h
    subst h
    constructor
    · rcases hmem with hm | hm
      · exact List.mem_cons_of_mem hd hm
      · exact hm ▸ List.mem_cons_self hd tl
    · intro q hq
      rcases List.mem_cons.mp hq with rfl | hq
      · exact hle
      · exact hall q hq

/-- A pair is in the aligned output exactly when its derived key is in the
derived list, its partner is the nearest reported event, and the difference
is within tolerance (inclusive). -/
theorem mem_alignEvents (derived reported : List ℚ) (tol d r : ℚ) :
    (d, r) ∈ alignEvents derived reported tol ↔
      d ∈ derived ∧ nearestReported reported d = some r ∧ |d - r| ≤ tol := by
  simp only [alignEvents, List.mem_filterMap]
  constructor
  · rintro ⟨d', hd', hf⟩
    split at hf
    · cases hf
    · rename_i r' hn
      split at hf
      · rename_i htol
        injection hf with hf
        obtain ⟨rfl, rfl⟩ := Prod.ext_iff.mp hf
        exact ⟨hd', hn, htol⟩
      · cases hf
  · rintro ⟨hd, hn, htol⟩
    refine ⟨d, hd, ?_⟩
    rw [hn]
    simp [htol]

/-! ### Theorems for the claims -/

/-- C1: `occCovered` is true exactly when some pass's corrected interval
contains the ingress margin interval `[ingress - margin, ingress]` and some
(possibly different) pass's corrected interval contains the egress margin
interval `[egress, egress + margin]`. -/
theorem occCovered_iff_contains (passes : List Pass) (margin : ℚ)
    (occ : Occultation) :
    occCovered passes margin occ = true ↔
      (∃ p ∈ passes, p.time_start_corr ≤ occ.time_start - margin ∧
        p.time_end_corr ≥ occ.time_start) ∧
      (∃ p ∈ passes, p.time_start_corr ≤ occ.time_end ∧
        p.time_end_corr ≥ occ.time_end + margin) :=
  occCovered_eq_true_iff passes margin occ

/-- C2: a denylisted-station or MSPA pass is removed before any containment
test, and when every raw pass is such a pass the coverage check is false for
every window and margin. -/
theorem excluded_passes_never_cover (raw : List Pass) (margin : ℚ)
    (occ : Occultation)
    (hall : ∀ q ∈ raw,
      q.groundstation ∈ excludedStations ∨ q.mspa = MspaVal.str "true") :
    (∀ p : Pass,
      (p.groundstation ∈ excludedStations ∨ p.mspa = MspaVal.str "true") →
        p ∉ filterPasses raw) ∧
    occCovered (filterPasses raw) margin occ = false := by
  have hempty : filterPasses raw = [] := by
    rw [List.eq_nil_iff_forall_not_mem]
    intro p hp
    rw [mem_filterPasses] at hp
    rcases hall p hp.1 with h | h
    · exact hp.2.1 h
    · exact hp.2.2 h
  refine ⟨?_, ?_⟩
  · intro p hex hp
    rw [mem_filterPasses] at hp
    rcases hex with h | h
    · exact hp.2.1 h
    · exact hp.2.2 h
  · rw [hempty]
    simp [occCovered]

/-- C2 witness: a single KLZ pass whose corrected interval contains both
margin intervals is filtered out and yields `covered = false`. -/
theorem excluded_passes_never_cover_witness :
    (∀ p : Pass,
      (p.groundstation ∈ excludedStations ∨ p.mspa = MspaVal.str "true") →
        p ∉ filterPasses [⟨"KLZ", MspaVal.str "false", 0, 10000, 0⟩]) ∧
    occCovered (filterPasses [⟨"KLZ", MspaVal.str "false", 0, 10000, 0⟩])
      600 ⟨600, 1200⟩ = false :=
  excluded_passes_never_cover [⟨"KLZ", MspaVal.str "false", 0, 10000, 0⟩]
    600 ⟨600, 1200⟩ (by intro q hq; simp at hq; subst hq; simp [excludedStations])

/-- C10: a pass whose `mspa` field is anything other than the exact string
`'true'` (missing/NaN, a Python boolean, or another spelling) survives the
filter, and such a pass can serve as a covering pass. -/
theorem mspa_filter_only_literal_true (raw : List Pass) (p : Pass)
    (hin : p ∈ raw) (hgs : p.groundstation ∉ excludedStations)
    (hm : p.mspa ≠ MspaVal.str "true") :
    p ∈ filterPasses raw ∧
      ∀ (margin : ℚ) (occ : Occultation),
        p.time_start_corr ≤ occ.time_start - margin →
        p.time_end_corr ≥ occ.time_start →
        p.time_start_corr ≤ occ.time_end →
        p.time_end_corr ≥ occ.time_end + margin →
        occCovered (filterPasses raw) margin occ = true := by
  have hmem : p ∈ filterPasses raw := (mem_filterPasses raw p).mpr ⟨hin, hgs, hm⟩
  refine ⟨hmem, ?_⟩
  intro margin occ h1 h2 h3 h4
  rw [occCovered_eq_true_iff]
  exact ⟨⟨p, hmem, h1, h2⟩, ⟨p, hmem, h3, h4⟩⟩

/-- C10 witness: a pass with a missing (NaN) `mspa` field is retained and
covers. -/
theorem mspa_filter_only_literal_true_witness :
    (⟨"NNO", MspaVal.nan, 0, 10000, 0⟩ : Pass) ∈
      filterPasses [⟨"NNO", MspaVal.nan, 0, 10000, 0⟩] ∧
    ∀ (margin : ℚ) (occ : Occultation),
      Pass.time_start_corr ⟨"NNO", MspaVal.nan, 0, 10000, 0⟩ ≤
        occ.time_start - margin →
      Pass.time_end_corr ⟨"NNO", MspaVal.nan, 0, 10000, 0⟩ ≥ occ.time_start →
      Pass.time_start_corr ⟨"NNO", MspaVal.nan, 0, 10000, 0⟩ ≤ occ.time_end →
      Pass.time_end_corr ⟨"NNO", MspaVal.nan, 0, 10000, 0⟩ ≥
        occ.time_end + margin →
      occCovered (filterPasses [⟨"NNO", MspaVal.nan, 0, 10000, 0⟩])
        margin occ = true :=
  mspa_filter_only_literal_true [⟨"NNO", MspaVal.nan, 0, 10000, 0⟩]
    ⟨"NNO", MspaVal.nan, 0, 10000, 0⟩ (by simp) (by simp [excludedStations])
    (by simp)

/-- C3: for `start_epoch < end_epoch` and `step > 0`, the sampled epoch grid
(before validity filtering) has exactly `ceil((end_epoch - start_epoch) /
step)` entries. -/
theorem arange_length (s e st : ℚ) (hse : s < e) (hst : 0 < st) :
    (arange s e st).length = ⌈(e - s) / st⌉.toNat :=
  arange_length_of_pos s e st hst

/-- C3 witness: scanning `[0, 10)` at step 3 yields `ceil (10/3) = 4`
samples. -/
theorem arange_length_witness :
    (arange 0 10 3).length = ⌈((10 : ℚ) - 0) / 3⌉.toNat :=
  arange_length 0 10 3 (by norm_num) (by norm_num)

/-- C4: crossing detection is symmetric between ingress and egress — a
two-sample series detected as an ingress at index 1 yields, when reversed,
exactly one egress at index 1 and no ingress, and the original series yields
no egress. -/
theorem crossing_detection_symmetric (a b radius : ℚ)
    (h : ingressIdxs [a, b] radius = [1]) :
    egressIdxs [b, a] radius = [1] ∧ ingressIdxs [b, a] radius = [] ∧
      egressIdxs [a, b] radius = [] := by
  rw [ingressIdxs_pair] at h
  by_cases hc : a > radius ∧ b ≤ radius
  · obtain ⟨h1, h2⟩ := hc
    rw [egressIdxs_pair, ingressIdxs_pair, egressIdxs_pair]
    refine ⟨if_pos ⟨h2, h1⟩, if_neg ?_, if_neg ?_⟩
    · rintro ⟨hb, _⟩
      exact absurd h2 (not_le.mpr hb)
    · rintro ⟨ha, _⟩
      exact absurd h1 (not_lt.mpr ha)
  · rw [if_neg hc] at h
    cases h

/-- C4 witness: the impact-parameter series `[5, 2]` against radius 3 yields
one ingress at index 1 and no egress; the reversed series `[2, 5]` yields one
egress at index 1 and no ingress. -/
theorem crossing_detection_symmetric_witness :
    egressIdxs [2, 5] 3 = [1] ∧ ingressIdxs [2, 5] 3 = [] ∧
      egressIdxs [5, 2] 3 = [] :=
  crossing_detection_symmetric 5 2 3 (by decide)

/-- C5: the valid samples are in non-decreasing epoch order before the
crossing reduction runs, and the returned ingress and egress event lists are
each ordered by epoch (non-decreasing ET column). -/
theorem scan_results_sorted (E : Ephem) (s e st : ℚ) (hst : 0 < st) :
    List.Sorted (· ≤ ·) ((validSamples E (arange s e st)).map Sample.et) ∧
    ∀ ing egr, find_occultations E s e st = some (ing, egr) →
      List.Sorted (· ≤ ·) (ing.map Event.et) ∧
      List.Sorted (· ≤ ·) (egr.map Event.et) := by
  have hv := validSamples_et_sorted E s e st hst
  refine ⟨hv, ?_⟩
  intro ing egr hfind
  simp only [find_occultations] at hfind
  split at hfind
  · cases hfind
  · injection hfind with h
    rw [Prod.ext_iff] at h
    obtain ⟨h1, h2⟩ := h
    subst h1
    subst h2
    constructor
    · rw [map_et_ingEvents]
      refine sorted_map_getD _ hv _ (ingressIdxs_pairwise _ _) ?_
      intro i hi
      have := ingressIdxs_bound _ _ i hi
      simpa using this
    · rw [map_et_egrEvents]
      refine sorted_map_getD _ hv _ (egressIdxs_pairwise _ _) ?_
      intro i hi
      have := egressIdxs_bound _ _ i hi
      simpa using this

/-- C5 witness: a concrete all-successful scan over `[0, 3)` at step 1. -/
theorem scan_results_sorted_witness :
    List.Sorted (· ≤ ·)
      ((validSamples ⟨fun _ => some ⟨0, (0, 0, 0), 0⟩, fun v => v, fun _ => 0, 1⟩
        (arange 0 3 1)).map Sample.et) ∧
    ∀ ing egr,
      find_occultations
        ⟨fun _ => some ⟨0, (0, 0, 0), 0⟩, fun v => v, fun _ => 0, 1⟩
        0 3 1 = some (ing, egr) →
      List.Sorted (· ≤ ·) (ing.map Event.et) ∧
      List.Sorted (· ≤ ·) (egr.map Event.et) :=
  scan_results_sorted _ 0 3 1 (by norm_num)

/-- C6: a geometry failure at a single epoch gives a `None` per-epoch result
(no exception propagates), that sample is dropped before the crossing
reduction, and the scan still produces its event lists from the remaining
epochs. -/
theorem geometry_failure_dropped (E : Ephem) (s e st bad : ℚ)
    (pre post : List ℚ) (hbad : E.geom bad = none)
    (hsplit : arange s e st = pre ++ bad :: post) :
    compute_tangent_params E bad = none ∧
    validSamples E (arange s e st) =
      validSamples E pre ++ validSamples E post ∧
    (validSamples E (arange s e st) ≠ [] →
      find_occultations E s e st =
        some (ingEvents E (validSamples E (arange s e st)),
          egrEvents E (validSamples E (arange s e st)))) := by
  have h1 : compute_tangent_params E bad = none := by
    simp only [compute_tangent_params, hbad]
  refine ⟨h1, ?_, ?_⟩
  · rw [hsplit, validSamples, List.filterMap_append, List.filterMap_cons, h1]
    rfl
  · intro hne
    simp only [find_occultations]
    rw [if_neg]
    intro hcontra
    exact hne (List.isEmpty_iff.mp hcontra)

/-- C6 witness: on the grid `[0, 1, 2]` with the geometry failing only at
epoch 1, the failed sample is dropped and the scan still returns event
lists. -/
theorem geometry_failure_dropped_witness :
    compute_tangent_params
      ⟨fun et => if et = 1 then none else some ⟨et, (0, 0, 0), 0⟩,
        fun v => v, fun _ => 0, 1⟩ 1 = none ∧
    validSamples
      ⟨fun et => if et = 1 then none else some ⟨et, (0, 0, 0), 0⟩,
        fun v => v, fun _ => 0, 1⟩ (arange 0 3 1) =
      validSamples
        ⟨fun et => if et = 1 then none else some ⟨et, (0, 0, 0), 0⟩,
          fun v => v, fun _ => 0, 1⟩ [0] ++
      validSamples
        ⟨fun et => if et = 1 then none else some ⟨et, (0, 0, 0), 0⟩,
          fun v => v, fun _ => 0, 1⟩ [2] ∧
    (validSamples
        ⟨fun et => if et = 1 then none else some ⟨et, (0, 0, 0), 0⟩,
          fun v => v, fun _ => 0, 1⟩ (arange 0 3 1) ≠ [] →
      find_occultations
          ⟨fun et => if et = 1 then none else some ⟨et, (0, 0, 0), 0⟩,
            fun v => v, fun _ => 0, 1⟩ 0 3 1 =
        some
          (ingEvents
            ⟨fun et => if et = 1 then none else some ⟨et, (0, 0, 0), 0⟩,
              fun v => v, fun _ => 0, 1⟩
            (validSamples
              ⟨fun et => if et = 1 then none else some ⟨et, (0, 0, 0), 0⟩,
                fun v => v, fun _ => 0, 1⟩ (arange 0 3 1)),
          egrEvents
            ⟨fun et => if et = 1 then none else some ⟨et, (0, 0, 0), 0⟩,
              fun v => v, fun _ => 0, 1⟩
            (validSamples
              ⟨fun et => if et = 1 then none else some ⟨et, (0, 0, 0), 0⟩,
                fun v => v, fun _ => 0, 1⟩ (arange 0 3 1)))) :=
  geometry_failure_dropped _ 0 3 1 1 [0] [2] (by norm_num)
    (by rw [arange_eq_cons 0 3 1 (by norm_num) (by norm_num),
          show (0:ℚ) + 1 = 1 by norm_num,
          arange_eq_cons 1 3 1 (by norm_num) (by norm_num),
          show (1:ℚ) + 1 = 2 by norm_num,
          arange_eq_cons 2 3 1 (by norm_num) (by norm_num),
          show (2:ℚ) + 1 = 3 by norm_num,
          arange_eq_nil 3 3 1 (by norm_num)]
        rfl)

/-- C9: when every sampled epoch fails the geometry query, the scan does not
return two empty event lists: the unpacking of the empty valid list raises,
modelled as `none`. -/
theorem all_failed_scan_raises (E : Ephem) (s e st : ℚ)
    (hall : ∀ et ∈ arange s e st, E.geom et = none) :
    find_occultations E s e st = none := by
  have hv : validSamples E (arange s e st) = [] := by
    rw [validSamples, List.filterMap_eq_nil_iff]
    intro et hm
    simp only [compute_tangent_params, hall et hm]
  simp [find_occultations, hv]

/-- C9 witness: a geometry oracle that always fails makes the whole scan
raise. -/
theorem all_failed_scan_raises_witness :
    find_occultations ⟨fun _ => none, fun v => v, fun _ => 0, 1⟩ 0 3 1 = none :=
  all_failed_scan_raises _ 0 3 1 (fun _ _ => rfl)

/-- C7: the aligner pairs a derived event with the nearest reported event,
keeps the pair exactly when the absolute difference is within the tolerance
(inclusive: a difference of exactly 60 with tolerance 60 matches, 61 does
not), and drops unmatched derived events. -/
theorem align_nearest_within_tolerance (derived reported : List ℚ)
    (tol d r : ℚ) :
    ((d, r) ∈ alignEvents derived reported tol ↔
      d ∈ derived ∧ nearestReported reported d = some r ∧ |d - r| ≤ tol) ∧
    (nearestReported reported d = some r →
      r ∈ reported ∧ ∀ q ∈ reported, |d - r| ≤ |d - q|) ∧
    ((0 : ℚ), (60 : ℚ)) ∈ alignEvents [0] [60] 60 ∧
    ((0 : ℚ), (61 : ℚ)) ∉ alignEvents [0] [61] 60 :=
  ⟨mem_alignEvents derived reported tol d r,
   nearestReported_spec reported d r,
   (mem_alignEvents [0] [60] 60 0 60).mpr
     ⟨by simp, rfl, by rw [abs_le]; norm_num⟩,
   fun h => absurd ((mem_alignEvents [0] [61] 60 0 61).mp h).2.2
     (by rw [abs_le]; norm_num)⟩

/-- C8 counterexample: with an empty in-scope derived-event set the coverage
percentage computation divides by zero and raises (no guard exists), instead
of returning a defined value. -/
theorem coverage_pct_empty_scope_raises : coverageStat [] [] 60 = none := rfl

/-- C8 amended: the coverage percentage raises `ZeroDivisionError` exactly
when the in-scope derived-event set is empty; the denominator is not
guarded. -/
theorem coverage_pct_none_iff_empty (derived reported : List ℚ) (tol : ℚ) :
    coverageStat derived reported tol = none ↔ derived = [] := by
  by_cases h : derived = []
  · subst h
    simp [coverageStat]
  · simp [coverageStat, List.length_eq_zero, h]

end TGO
